import Mathlib

/-!
Verification of the Cura Profile Extractor's settings-resolution engine.

The Python source (`cura_profile_extractor.py`) is shallowly embedded here:

* Python dicts are association lists `List (String × α)` with Python's
  insertion-order update semantics (`aget`, `aset`, `aupdate`).
* JSON scalar values are modelled by `PVal` (strings, integers, booleans);
  the engine never computes with values, it only copies and compares them.
* The definition tree (`settings` blocks of a `.def.json`) is `DefForest`.
* The filesystem of definition documents is a lookup `DefEnv`; the chain
  walk of `CuraExtractor._extract_machine` becomes `buildChain` (fuel-based,
  since the source loop has no termination guarantee) and `chainStep` (its
  loop-control step function).
-/

set_option autoImplicit false

/-- A scalar value as it appears in a parsed Cura document (JSON scalar or
cfg string).  The extractor copies values around and tests Python
truthiness; it never does arithmetic on them. -/
inductive PVal where
  | vStr (s : String)
  | vInt (n : Int)
  | vBool (b : Bool)
  deriving DecidableEq, Repr

/-- Python truthiness of a scalar value (`bool(v)`). -/
def pyTruthy : PVal → Bool
  | .vStr s => s ≠ ""
  | .vInt n => n ≠ 0
  | .vBool b => b

/-- Python truthiness of an optional value (`None` is falsy). -/
def pyTruthyO : Option PVal → Bool
  | none => false
  | some v => pyTruthy v

/-- Python `a or b` on optional values. -/
def pyOr (a b : Option PVal) : Option PVal :=
  if pyTruthyO a then a else b

/-- First-some choice, used to state shallow-merge results
(`b` is the fallback when `a` is absent). -/
def oOr {α : Type} (a b : Option α) : Option α :=
  match a with
  | some v => some v
  | none => b

@[simp] theorem oOr_none_left {α : Type} (b : Option α) : oOr none b = b := rfl

@[simp] theorem oOr_some_left {α : Type} (v : α) (b : Option α) :
    oOr (some v) b = some v := rfl

@[simp] theorem oOr_none_right {α : Type} (a : Option α) : oOr a none = a := by
  cases a <;> rfl

/-! ### Python-dict model: association lists with in-place update -/

/-- Lookup in a Python-dict model (first matching key). -/
def aget {α : Type} : List (String × α) → String → Option α
  | [], _ => none
  | (k2, v) :: rest, k => if k2 = k then some v else aget rest k

/-- `d[k] = v` on a Python-dict model: overwrite in place if the key exists,
append at the end otherwise (insertion order preserved). -/
def aset {α : Type} : List (String × α) → String → α → List (String × α)
  | [], k, v => [(k, v)]
  | (k2, v2) :: rest, k, v =>
      if k2 = k then (k2, v) :: rest else (k2, v2) :: aset rest k v

/-- `d.update(inc)` on a Python-dict model. -/
def aupdate {α : Type} (d inc : List (String × α)) : List (String × α) :=
  inc.foldl (fun a kv => aset a kv.1 kv.2) d

/-- The keys of a Python-dict model, in insertion order. -/
def keysOf {α : Type} (d : List (String × α)) : List String :=
  d.map Prod.fst

@[simp] theorem keysOf_nil {α : Type} : keysOf ([] : List (String × α)) = [] := rfl

@[simp] theorem keysOf_cons {α : Type} (k : String) (v : α) (d : List (String × α)) :
    keysOf ((k, v) :: d) = k :: keysOf d := rfl

@[simp] theorem aget_nil {α : Type} (k : String) : aget ([] : List (String × α)) k = none := rfl

theorem aget_cons {α : Type} (k2 k : String) (v : α) (rest : List (String × α)) :
    aget ((k2, v) :: rest) k = if k2 = k then some v else aget rest k := rfl

@[simp] theorem aget_aset_self {α : Type} (d : List (String × α)) (k : String) (v : α) :
    aget (aset d k v) k = some v := by
  induction d with
  | nil => simp [aset, aget]
  | cons hd tl ih =>
      obtain ⟨k2, v2⟩ := hd
      by_cases h : k2 = k
      · simp [aset, h, aget]
      · simp [aset, h, aget, ih]

theorem aget_aset_ne {α : Type} (d : List (String × α)) {k1 k : String} (h : k1 ≠ k) (v : α) :
    aget (aset d k1 v) k = aget d k := by
  induction d with
  | nil => simp [aset, aget, h]
  | cons hd tl ih =>
      obtain ⟨k2, v2⟩ := hd
      by_cases h2 : k2 = k1
      · subst h2
        simp [aset, aget, h]
      · simp [aset, h2, aget, ih]

theorem aget_isSome_iff_mem {α : Type} (d : List (String × α)) (k : String) :
    (aget d k).isSome = true ↔ k ∈ keysOf d := by
  induction d with
  | nil => simp [aget]
  | cons hd tl ih =>
      obtain ⟨k2, v2⟩ := hd
      by_cases h : k2 = k
      · subst h
        simp [aget]
      · simp [aget, h, ih, Ne.symm h]

theorem aget_eq_none_of_not_mem {α : Type} {d : List (String × α)} {k : String}
    (h : k ∉ keysOf d) : aget d k = none := by
  cases hk : aget d k with
  | none => rfl
  | some v =>
      exact absurd ((aget_isSome_iff_mem d k).mp (by simp [hk])) h

theorem keysOf_aset {α : Type} (d : List (String × α)) (k : String) (v : α) :
    keysOf (aset d k v) = if k ∈ keysOf d then keysOf d else keysOf d ++ [k] := by
  induction d with
  | nil => simp [aset]
  | cons hd tl ih =>
      obtain ⟨k2, v2⟩ := hd
      by_cases h : k2 = k
      · subst h
        simp [aset]
      · by_cases hmem : k ∈ keysOf tl
        · simp [aset, h, ih, hmem, Ne.symm h]
        · simp [aset, h, ih, hmem, Ne.symm h]

theorem nodup_keysOf_aset {α : Type} (d : List (String × α)) (k : String) (v : α)
    (h : (keysOf d).Nodup) : (keysOf (aset d k v)).Nodup := by
  rw [keysOf_aset]
  by_cases hmem : k ∈ keysOf d
  · simp [hmem, h]
  · simp [hmem]
    exact List.Nodup.append h (by simp) (by simp [List.disjoint_singleton, hmem])

theorem aget_aupdate_not_mem {α : Type} (d inc : List (String × α)) (k : String)
    (h : k ∉ keysOf inc) : aget (aupdate d inc) k = aget d k := by
  induction inc generalizing d with
  | nil => rfl
  | cons hd tl ih =>
      obtain ⟨k2, v2⟩ := hd
      simp only [keysOf_cons, List.mem_cons, not_or] at h
      show aget (aupdate (aset d k2 v2) tl) k = aget d k
      rw [ih (aset d k2 v2) h.2, aget_aset_ne d (Ne.symm h.1) v2]

/-- Shallow-merge behaviour of `d.update(inc)` when `inc` has no duplicate
keys (true of every parsed Python dict): fields of `inc` win, remaining
fields come from `d`. -/
theorem aget_aupdate {α : Type} (d inc : List (String × α)) (k : String)
    (hnd : (keysOf inc).Nodup) : aget (aupdate d inc) k = oOr (aget inc k) (aget d k) := by
  induction inc generalizing d with
  | nil => rfl
  | cons hd tl ih =>
      obtain ⟨k2, v2⟩ := hd
      simp only [keysOf_cons, List.nodup_cons] at hnd
      show aget (aupdate (aset d k2 v2) tl) k = _
      by_cases h : k2 = k
      · subst h
        rw [aget_aupdate_not_mem _ _ _ hnd.1, aget_aset_self]
        simp [aget]
      · rw [ih _ hnd.2, aget_aset_ne d h v2]
        simp [aget, h]

/-- Generic invariant-preservation along a left fold. -/
theorem foldl_invariant {α β : Type} (P : α → Prop) (step : α → β → α)
    (h : ∀ a b, P a → P (step a b)) :
    ∀ (l : List β) (a : α), P a → P (l.foldl step a) := by
  intro l
  induction l with
  | nil => intro a ha; exact ha
  | cons hd tl ih => intro a ha; exact ih (step a hd) (h a hd ha)

theorem getLast?_append_singleton {α : Type} (l : List α) (a : α) :
    (l ++ [a]).getLast? = some a := by
  simp

/-! ### Definition documents and the Definition Tree Walker
(`extract_settings_from_def`) -/

/-- Per-setting metadata at one layer: a Python dict of scalar fields. -/
abbrev SettingDict : Type := List (String × PVal)

/-- Flat map from setting key to metadata, as built by
`extract_settings_from_def`. -/
abbrev SMap : Type := List (String × SettingDict)

/-- The `settings` tree of a `.def.json`: a forest of keyed nodes, each with
its scalar properties and a child forest (`children`). -/
inductive DefForest where
  | nil
  | node (key : String) (props : SettingDict) (children rest : DefForest)
  deriving DecidableEq, Repr

/-- One parsed `.def.json` document, as the extractor reads it:
`_filename` annotation, optional `inherits`, `settings` and `overrides`. -/
structure DefData where
  filename : Option String
  inherits : Option String
  settings : Option DefForest
  overrides : Option (List (String × SettingDict))
  deriving DecidableEq, Repr

/-- The fixed allow-list of metadata fields copied for each leaf setting
(the `prop` loop in `extract_settings_from_def`). -/
def SETTING_PROPS : List String :=
  ["default_value", "value", "type", "description", "unit",
   "minimum_value", "maximum_value", "enabled", "settable_per_mesh",
   "settable_per_extruder", "options"]

/-- `setting_info`: the allow-listed fields present on a node. -/
def settingInfo (props : SettingDict) : SettingDict :=
  SETTING_PROPS.filterMap (fun prop => (aget props prop).map (fun v => (prop, v)))

/-- Emit one node at `path`: a node is a leaf setting when it has a `type`
field different from the category marker; an empty field set is skipped
(`if setting_info:`). -/
def emitNode (acc : SMap) (path : String) (props : SettingDict) : SMap :=
  match aget props "type" with
  | none => acc
  | some t =>
      if t = PVal.vStr "category" then acc
      else
        let info := settingInfo props
        if info = [] then acc else aset acc path info

/-- The recursive `recurse` walk over the settings tree: children first
(each under its own key, flat namespace), then the node itself. -/
def walkForest (acc : SMap) : DefForest → SMap
  | .nil => acc
  | .node key props children rest =>
      let acc1 := walkForest acc children
      let acc2 := emitNode acc1 key props
      walkForest acc2 rest

/-- The `settings`-tree pass of `extract_settings_from_def`. -/
def settingsPass (d : DefData) : SMap :=
  match d.settings with
  | none => []
  | some f => walkForest [] f

/-- One step of the `overrides` pass: merge the override's fields into the
key's entry (creating it if new) and stamp the `_source` tag with this
document's file name. -/
def overridesStep (fname : String) (acc : SMap) (kv : String × SettingDict) : SMap :=
  let cur := (aget acc kv.1).getD []
  aset acc kv.1 (aset (aupdate cur kv.2) "_source" (PVal.vStr fname))

/-- `extract_settings_from_def`: flatten the `settings` tree, then apply the
`overrides` map. -/
def extract_settings_from_def (d : DefData) : SMap :=
  let s := settingsPass d
  match d.overrides with
  | none => s
  | some ovs => ovs.foldl (overridesStep (d.filename.getD "unknown")) s

/-! ### Inheritance Chain Resolver (the `while current_def` loop of
`CuraExtractor._extract_machine`) -/

/-- The definitions directory: which `.def.json` document backs an
identifier (`none` when `<id>.def.json` does not exist). -/
abbrev DefEnv : Type := String → Option DefData

/-- One recorded chain link: the identifier and the parent it declares. -/
structure ChainLink where
  name : String
  inherits : Option String
  deriving DecidableEq, Repr

/-- Result of the fuel-bounded chain walk: `ok` when the source loop exits
on its own (falsy identifier, missing document, or no declared parent),
`out` when the fuel ran out with the loop still going. -/
inductive BuildResult where
  | ok (links : List ChainLink)
  | out (links : List ChainLink)
  deriving DecidableEq, Repr

/-- Whether the fuel ran out before the loop exited. -/
def isOut : BuildResult → Bool
  | .ok _ => false
  | .out _ => true

/-- The chain walk of `_extract_machine`, bounded by fuel because the
source loop has no termination guarantee: while the current identifier is
truthy, look up its document; if absent, break; otherwise record the link
and continue with the declared parent. -/
def buildChain (env : DefEnv) : Nat → String → BuildResult
  | 0, _ => .out []
  | fuel + 1, cur =>
      if cur = "" then .ok []
      else
        match env cur with
        | none => .ok []
        | some d =>
            match d.inherits with
            | none => .ok [⟨cur, none⟩]
            | some p =>
                match buildChain env fuel p with
                | .ok rest => .ok (⟨cur, some p⟩ :: rest)
                | .out rest => .out (⟨cur, some p⟩ :: rest)

/-- Loop-control state of the chain walk: still running on some
identifier, or the loop has exited. -/
inductive WalkState where
  | running (cur : String)
  | done
  deriving DecidableEq, Repr

/-- One iteration of the source loop's control flow: exit on a falsy
identifier, a missing document, or an undeclared parent; otherwise move to
the declared parent. -/
def chainStep (env : DefEnv) : WalkState → WalkState
  | .done => .done
  | .running cur =>
      if cur = "" then .done
      else
        match env cur with
        | none => .done
        | some d =>
            match d.inherits with
            | none => .done
            | some p => .running p

/-- Iterated loop control: the state after `n` iterations starting from
identifier `start`. -/
def walkIter (env : DefEnv) (start : String) : Nat → WalkState
  | 0 => .running start
  | n + 1 => chainStep env (walkIter env start n)

/-! ### Effective Settings Merger (chain merge and `definition_changes`
overlay of `_extract_machine`) -/

/-- One merged effective setting: its metadata fields and the `_sources`
provenance list. -/
structure EffEntry where
  fields : SettingDict
  sources : List String
  deriving DecidableEq, Repr

/-- The effective-settings map. -/
abbrev EffMap : Type := List (String × EffEntry)

/-- The settings a chain link contributes: re-read its document and run
`extract_settings_from_def`; a vanished or unreadable document contributes
nothing. -/
def linkSettings (env : DefEnv) (l : ChainLink) : SMap :=
  match env l.name with
  | none => []
  | some d => extract_settings_from_def d

/-- Merge one extracted setting into the effective map: create the entry
with empty provenance if new, update its fields, and append the layer name
to `_sources`. -/
def msStep (name : String) (acc : EffMap) (kv : String × SettingDict) : EffMap :=
  let e := (aget acc kv.1).getD ⟨[], []⟩
  aset acc kv.1 ⟨aupdate e.fields kv.2, e.sources ++ [name]⟩

/-- Merge one chain link's settings into the effective map. -/
def mergeStep (env : DefEnv) (eff : EffMap) (l : ChainLink) : EffMap :=
  (linkSettings env l).foldl (msStep l.name) eff

/-- Merge the whole chain, most general layer first (`reversed(chain)`). -/
def mergeChain (env : DefEnv) (chain : List ChainLink) : EffMap :=
  chain.reverse.foldl (mergeStep env) []

/-- The order in which the merger visits the chain layers. -/
def mergeTrace (chain : List ChainLink) : List String :=
  chain.reverse.map ChainLink.name

/-- Overlay one `definition_changes` value: create the entry if the key was
never seen, set `effective_value`, and append the `definition_changes`
marker to `_sources`. -/
def dcStep (acc : EffMap) (kv : String × PVal) : EffMap :=
  let e := (aget acc kv.1).getD ⟨[], []⟩
  aset acc kv.1 ⟨aset e.fields "effective_value" kv.2, e.sources ++ ["definition_changes"]⟩

/-- Overlay the optional `definition_changes` values section. -/
def applyDefChanges (eff : EffMap) (ov : Option (List (String × PVal))) : EffMap :=
  match ov with
  | none => eff
  | some vs => vs.foldl dcStep eff

/-- The full merger: chain merge followed by the `definition_changes`
overlay. -/
def effectiveSettings (env : DefEnv) (chain : List ChainLink)
    (ov : Option (List (String × PVal))) : EffMap :=
  applyDefChanges (mergeChain env chain) ov

/-- Whether the override (definition-changes) layer defines a key. -/
def ovHas (ov : Option (List (String × PVal))) (key : String) : Bool :=
  match ov with
  | none => false
  | some vs => (aget vs key).isSome

/-- The override layer's `values` section has no duplicate keys (always
true of a parsed cfg section). -/
def ovNodup (ov : Option (List (String × PVal))) : Prop :=
  match ov with
  | none => True
  | some vs => (keysOf vs).Nodup

/-- Whether a chain link's document defines a key. -/
def linkDefines (env : DefEnv) (key : String) (l : ChainLink) : Bool :=
  (aget (linkSettings env l) key).isSome

/-- Length of a key's provenance list, zero when the key is absent. -/
def lenAt (m : EffMap) (key : String) : Nat :=
  match aget m key with
  | none => 0
  | some e => e.sources.length

/-! ### Structured Document Reader (`parse_cfg_file`, `parse_def_json`) -/

/-- A file path as the parsers annotate it: `str(filepath)` and
`filepath.name`. -/
structure FPath where
  full : String
  name : String
  deriving DecidableEq, Repr

/-- One cfg section: flat key to string values (configparser). -/
abbrev Sect : Type := List (String × String)

/-- What reading a cfg file can yield: the file is absent, reading or
parsing raises, or it parses into sections. -/
inductive CfgFile where
  | absent
  | unreadable (msg : String)
  | content (sections : List (String × Sect))
  deriving DecidableEq, Repr

/-- The dictionary `parse_cfg_file` returns, as a tagged record:
the `_filepath` and `_filename` annotations, the `_error` marker when
present, and the parsed sections. -/
structure CfgResult where
  filepath : String
  filename : String
  error : Option String
  sections : List (String × Sect)
  deriving DecidableEq, Repr

/-- `parse_cfg_file`: never propagates a failure; an absent file or a
raised parse error becomes an `_error` marker in the result. -/
def parse_cfg_file (fs : FPath → CfgFile) (p : FPath) : CfgResult :=
  match fs p with
  | .absent => ⟨p.full, p.name, some "File not found", []⟩
  | .unreadable msg => ⟨p.full, p.name, some msg, []⟩
  | .content secs => ⟨p.full, p.name, none, secs⟩

/-- Whether reading the cfg file failed (absent, unreadable or malformed). -/
def cfgFailed : CfgFile → Bool
  | .content _ => false
  | _ => true

/-- What reading a `.def.json` can yield. -/
inductive DefFile where
  | absent
  | unreadable (msg : String)
  | content (data : DefData)
  deriving DecidableEq, Repr

/-- The dictionary `parse_def_json` returns, as a tagged record. -/
structure DefJsonResult where
  filepath : String
  filename : String
  error : Option String
  data : Option DefData
  deriving DecidableEq, Repr

/-- `parse_def_json`: never propagates a failure; an absent file or a JSON
decode error becomes an `_error` marker in the result. -/
def parse_def_json (fs : FPath → DefFile) (p : FPath) : DefJsonResult :=
  match fs p with
  | .absent => ⟨p.full, p.name, some "File not found", none⟩
  | .unreadable msg => ⟨p.full, p.name, some msg, none⟩
  | .content d => ⟨p.full, p.name, none, some d⟩

/-- Whether reading the `.def.json` failed. -/
def defFailed : DefFile → Bool
  | .content _ => false
  | _ => true

/-! ### Custom quality-profile aggregation
(`CuraExtractor._extract_custom_qualities`) -/

/-- One `*.inst.cfg` file in the `quality_changes` directory, in
processing (directory enumeration) order. -/
structure QFile where
  path : String
  stem : String
  cfg : CfgResult
  deriving DecidableEq, Repr

/-- `cfg.get("general", {}).get("name", f.stem)`. -/
def qName (f : QFile) : String :=
  match (aget f.cfg.sections "general").bind (fun g => aget g "name") with
  | some n => n
  | none => f.stem

/-- One grouped custom profile: its backing files, merged flat settings,
and the last-seen metadata block. -/
structure QProfile where
  files : List String
  settings : Sect
  metadata : Option Sect
  deriving DecidableEq, Repr

/-- Process one profile file: group by declared name, append the file,
merge its `values` (later files overwrite on key collision), and keep its
`metadata` block. -/
def cqStep (res : List (String × QProfile)) (f : QFile) : List (String × QProfile) :=
  let name := qName f
  let cur := (aget res name).getD ⟨[], [], none⟩
  let cur1 := { cur with files := cur.files ++ [f.path] }
  let cur2 :=
    match aget f.cfg.sections "values" with
    | some vs => { cur1 with settings := aupdate cur1.settings vs }
    | none => cur1
  let cur3 :=
    match aget f.cfg.sections "metadata" with
    | some md => { cur2 with metadata := some md }
    | none => cur2
  aset res name cur3

/-- `_extract_custom_qualities` over the files of `quality_changes`, in
processing order. -/
def extractCustomQualities (files : List QFile) : List (String × QProfile) :=
  files.foldl cqStep []

/-! ### Quick-reference key settings (`extract_key_settings`) -/

/-- The `IMPORTANT_SETTINGS` list of `extract_key_settings`. -/
def IMPORTANT_SETTINGS : List String :=
  ["layer_height", "layer_height_0",
   "wall_thickness", "wall_line_count",
   "top_layers", "bottom_layers", "top_bottom_thickness",
   "infill_sparse_density", "infill_pattern",
   "speed_print", "speed_infill", "speed_wall", "speed_wall_0", "speed_wall_x",
   "speed_topbottom", "speed_travel", "speed_layer_0",
   "retraction_enable", "retraction_amount", "retraction_speed",
   "retraction_hop_enabled", "retraction_hop",
   "material_print_temperature", "material_bed_temperature",
   "cool_fan_speed", "cool_fan_speed_min", "cool_fan_speed_max",
   "support_enable", "support_type", "support_structure",
   "adhesion_type", "skirt_line_count", "brim_width",
   "machine_width", "machine_depth", "machine_height",
   "machine_heated_bed", "machine_nozzle_size"]

/-- The reported value for one setting: the definition-changes value when
the setting is customized there, otherwise the Python-truthiness fallback
`effective_value or value or default_value` over the effective entry;
`none` when the setting is in neither map. -/
def keySettingValue (effective : EffMap) (defChanges : List (String × PVal))
    (setting : String) : Option (Option PVal) :=
  if (aget defChanges setting).isSome then
    some (aget defChanges setting)
  else
    match aget effective setting with
    | some info =>
        some (pyOr (pyOr (aget info.fields "effective_value") (aget info.fields "value"))
              (aget info.fields "default_value"))
    | none => none

/-- Record one setting's reported value, skipping settings present in
neither map. -/
def ksStep (effective : EffMap) (defChanges : List (String × PVal))
    (acc : List (String × Option PVal)) (s : String) : List (String × Option PVal) :=
  match keySettingValue effective defChanges s with
  | some v => aset acc s v
  | none => acc

/-- `extract_key_settings`: walk `IMPORTANT_SETTINGS` in order and record
the reported value of each setting present in either map. -/
def extract_key_settings (effective : EffMap) (defChanges : List (String × PVal)) :
    List (String × Option PVal) :=
  IMPORTANT_SETTINGS.foldl (ksStep effective defChanges) []

/-! ### Chain scenarios -/

/-- The chain link a traversed document yields. -/
def LinkOf (nd : String × DefData) : ChainLink :=
  ⟨nd.1, nd.2.inherits⟩

/-- An explicit inheritance path whose final document declares a parent
identifier with no backing document: each listed identifier is truthy and
backed, each intermediate document declares the next identifier, and the
last document declares a truthy parent that is absent from the directory. -/
def MissingParentPath (env : DefEnv) : String → List (String × DefData) → Prop
  | _, [] => False
  | cur, (n, d) :: rest =>
      cur = n ∧ n ≠ "" ∧ env n = some d ∧
      match rest with
      | [] => ∃ p, d.inherits = some p ∧ p ≠ "" ∧ env p = none
      | r :: rs => ∃ p, d.inherits = some p ∧ MissingParentPath env p (r :: rs)

/-- The worked `layer_height` example: `fdmprinter` defines the setting in
its `settings` tree with default `0.2`. -/
def fdmDef : DefData :=
  { filename := some "fdmprinter.def.json"
    inherits := none
    settings := some (.node "resolution" [("type", .vStr "category")]
      (.node "layer_height" [("type", .vStr "float"), ("default_value", .vStr "0.2")] .nil .nil)
      .nil)
    overrides := none }

/-- `creality_base` inherits `fdmprinter` and does not mention
`layer_height`. -/
def baseDef : DefData :=
  { filename := some "creality_base.def.json"
    inherits := some "fdmprinter"
    settings := none
    overrides := none }

/-- `creality_ender3pro` inherits `creality_base` and overrides the
default of `layer_height` to `0.16`. -/
def e3proDef : DefData :=
  { filename := some "creality_ender3pro.def.json"
    inherits := some "creality_base"
    settings := none
    overrides := some [("layer_height", [("default_value", .vStr "0.16")])] }

/-- The definitions directory of the worked example. -/
def envC3 : DefEnv := fun n =>
  if n = "fdmprinter" then some fdmDef
  else if n = "creality_base" then some baseDef
  else if n = "creality_ender3pro" then some e3proDef
  else none

/-- The chain the resolver builds for the worked example. -/
def c3links : List ChainLink :=
  [⟨"creality_ender3pro", some "creality_base"⟩,
   ⟨"creality_base", some "fdmprinter"⟩,
   ⟨"fdmprinter", none⟩]

/-- The definition-changes layer of the worked example: `layer_height`
set to `0.12`. -/
def c3ov : Option (List (String × PVal)) :=
  some [("layer_height", PVal.vStr "0.12")]

/-- The effective entry the merger produces for `layer_height` in the
worked example. -/
def c3entry : EffEntry :=
  { fields := [("default_value", .vStr "0.16"), ("type", .vStr "float"),
               ("_source", .vStr "creality_ender3pro.def.json"),
               ("effective_value", .vStr "0.12")]
    sources := ["fdmprinter", "creality_ender3pro", "definition_changes"] }

/-- A cyclic directory: `cyc_a` declares `inherits cyc_b` and `cyc_b`
declares `inherits cyc_a`. -/
def cycA : DefData :=
  { filename := some "cyc_a.def.json", inherits := some "cyc_b"
    settings := none, overrides := none }

/-- The second document of the cycle. -/
def cycB : DefData :=
  { filename := some "cyc_b.def.json", inherits := some "cyc_a"
    settings := none, overrides := none }

/-- The cyclic definitions directory. -/
def envCyc : DefEnv := fun n =>
  if n = "cyc_a" then some cycA
  else if n = "cyc_b" then some cycB
  else none

/-- A document that defines one setting and declares a parent nobody
backs. -/
def c6dA : DefData :=
  { filename := some "c6a.def.json"
    inherits := some "c6_missing"
    settings := some (.node "c6_setting"
      [("type", .vStr "float"), ("default_value", .vStr "1")] .nil .nil)
    overrides := none }

/-- A directory where `c6a` is backed but its declared parent is not. -/
def envC6 : DefEnv := fun n =>
  if n = "c6a" then some c6dA else none

/-! ### Lemmas about the merge folds -/

theorem msFold_not_mem (n : String) (s : SMap) (eff : EffMap) (K : String)
    (h : K ∉ keysOf s) : aget (s.foldl (msStep n) eff) K = aget eff K := by
  induction s generalizing eff with
  | nil => rfl
  | cons hd tl ih =>
      obtain ⟨k0, v0⟩ := hd
      simp only [keysOf_cons, List.mem_cons, not_or] at h
      rw [List.foldl_cons, ih _ h.2]
      exact aget_aset_ne eff (Ne.symm h.1) _

theorem lenAt_msStep_self (n : String) (eff : EffMap) (K : String) (v : SettingDict) :
    lenAt (msStep n eff (K, v)) K = lenAt eff K + 1 := by
  unfold msStep lenAt
  rw [aget_aset_self]
  cases h : aget eff K <;> simp [h]

theorem lenAt_msStep_ne (n : String) (eff : EffMap) {k0 K : String} (h : k0 ≠ K)
    (v : SettingDict) : lenAt (msStep n eff (k0, v)) K = lenAt eff K := by
  unfold msStep lenAt
  rw [aget_aset_ne eff h]

theorem lenAt_msFold (n : String) (s : SMap) (K : String)
    (hnd : (keysOf s).Nodup) :
    ∀ eff : EffMap, lenAt (s.foldl (msStep n) eff) K =
      lenAt eff K + (if (aget s K).isSome then 1 else 0) := by
  induction s with
  | nil => intro eff; simp [aget]
  | cons hd tl ih =>
      intro eff
      obtain ⟨k0, v0⟩ := hd
      simp only [keysOf_cons, List.nodup_cons] at hnd
      rw [List.foldl_cons]
      by_cases h : k0 = K
      · subst h
        have htl : aget tl k0 = none := aget_eq_none_of_not_mem hnd.1
        rw [ih hnd.2, lenAt_msStep_self]
        simp [aget, htl]
      · rw [ih hnd.2, lenAt_msStep_ne n eff h]
        simp [aget, h]

theorem isSome_msFold (n : String) (s : SMap) (K : String) :
    ∀ eff : EffMap, (aget (s.foldl (msStep n) eff) K).isSome =
      ((aget eff K).isSome || (aget s K).isSome) := by
  induction s with
  | nil => intro eff; simp [aget]
  | cons hd tl ih =>
      intro eff
      obtain ⟨k0, v0⟩ := hd
      rw [List.foldl_cons, ih]
      by_cases h : k0 = K
      · subst h
        unfold msStep
        rw [aget_aset_self]
        simp [aget]
      · unfold msStep
        rw [aget_aset_ne eff h]
        simp [aget, h]

/-- Provenance lists are never empty in a map where they never were. -/
def srcNonempty (m : EffMap) : Prop :=
  ∀ K e, aget m K = some e → e.sources ≠ []

theorem srcNonempty_msStep (n : String) (m : EffMap) (kv : String × SettingDict)
    (h : srcNonempty m) : srcNonempty (msStep n m kv) := by
  intro K e hK
  obtain ⟨k0, v0⟩ := kv
  unfold msStep at hK
  by_cases hk : k0 = K
  · subst hk
    rw [aget_aset_self] at hK
    cases hK
    simp
  · rw [aget_aset_ne m hk] at hK
    exact h K e hK

theorem srcNonempty_dcStep (m : EffMap) (kv : String × PVal)
    (h : srcNonempty m) : srcNonempty (dcStep m kv) := by
  intro K e hK
  obtain ⟨k0, v0⟩ := kv
  unfold dcStep at hK
  by_cases hk : k0 = K
  · subst hk
    rw [aget_aset_self] at hK
    cases hK
    simp
  · rw [aget_aset_ne m hk] at hK
    exact h K e hK

theorem nodup_msStep (n : String) (m : EffMap) (kv : String × SettingDict)
    (h : (keysOf m).Nodup) : (keysOf (msStep n m kv)).Nodup :=
  nodup_keysOf_aset _ _ _ h

theorem nodup_dcStep (m : EffMap) (kv : String × PVal)
    (h : (keysOf m).Nodup) : (keysOf (dcStep m kv)).Nodup :=
  nodup_keysOf_aset _ _ _ h

theorem nodup_emitNode (acc : SMap) (path : String) (props : SettingDict)
    (h : (keysOf acc).Nodup) : (keysOf (emitNode acc path props)).Nodup := by
  unfold emitNode
  cases aget props "type" with
  | none => exact h
  | some t =>
      by_cases ht : t = PVal.vStr "category"
      · simpa [ht]
      · by_cases hi : settingInfo props = [] <;>
          simp [ht, hi, nodup_keysOf_aset, h]

theorem nodup_walkForest (f : DefForest) :
    ∀ acc : SMap, (keysOf acc).Nodup → (keysOf (walkForest acc f)).Nodup := by
  induction f with
  | nil => intro acc h; exact h
  | node key props children rest ihc ihr =>
      intro acc h
      exact ihr _ (nodup_emitNode _ _ _ (ihc _ h))

theorem nodup_extract (d : DefData) :
    (keysOf (extract_settings_from_def d)).Nodup := by
  have hs : (keysOf (settingsPass d)).Nodup := by
    unfold settingsPass
    cases d.settings with
    | none => simp [keysOf]
    | some f => exact nodup_walkForest f [] (by simp [keysOf])
  unfold extract_settings_from_def
  cases d.overrides with
  | none => exact hs
  | some ovs =>
      exact foldl_invariant (fun m => (keysOf m).Nodup) _
        (fun a b ha => nodup_keysOf_aset _ _ _ ha) ovs _ hs

theorem nodup_linkSettings (env : DefEnv) (l : ChainLink) :
    (keysOf (linkSettings env l)).Nodup := by
  unfold linkSettings
  cases env l.name with
  | none => simp [keysOf]
  | some d => exact nodup_extract d

theorem lenAt_mergeStep (env : DefEnv) (eff : EffMap) (l : ChainLink) (K : String) :
    lenAt (mergeStep env eff l) K =
      lenAt eff K + (if linkDefines env K l then 1 else 0) := by
  unfold mergeStep linkDefines
  exact lenAt_msFold l.name (linkSettings env l) K (nodup_linkSettings env l) eff

theorem lenAt_chainFold (env : DefEnv) (ls : List ChainLink) (K : String) :
    ∀ eff : EffMap, lenAt (ls.foldl (mergeStep env) eff) K =
      lenAt eff K + (ls.filter (linkDefines env K)).length := by
  induction ls with
  | nil => intro eff; simp
  | cons l tl ih =>
      intro eff
      rw [List.foldl_cons, ih, lenAt_mergeStep]
      by_cases h : linkDefines env K l <;> (simp [List.filter_cons, h]; try omega)

theorem isSome_mergeStep (env : DefEnv) (eff : EffMap) (l : ChainLink) (K : String) :
    (aget (mergeStep env eff l) K).isSome =
      ((aget eff K).isSome || linkDefines env K l) := by
  unfold mergeStep linkDefines
  exact isSome_msFold l.name (linkSettings env l) K eff

theorem isSome_chainFold (env : DefEnv) (ls : List ChainLink) (K : String) :
    ∀ eff : EffMap, (aget (ls.foldl (mergeStep env) eff) K).isSome =
      ((aget eff K).isSome || ls.any (linkDefines env K)) := by
  induction ls with
  | nil => intro eff; simp
  | cons l tl ih =>
      intro eff
      rw [List.foldl_cons, ih, isSome_mergeStep]
      simp [Bool.or_assoc]

theorem dcFold_not_mem (vs : List (String × PVal)) (K : String)
    (h : K ∉ keysOf vs) : ∀ eff : EffMap, aget (vs.foldl dcStep eff) K = aget eff K := by
  induction vs with
  | nil => intro eff; rfl
  | cons hd tl ih =>
      intro eff
      obtain ⟨k0, v0⟩ := hd
      simp only [keysOf_cons, List.mem_cons, not_or] at h
      rw [List.foldl_cons, ih h.2]
      exact aget_aset_ne eff (Ne.symm h.1) _

theorem lenAt_dcFold (vs : List (String × PVal)) (K : String)
    (hnd : (keysOf vs).Nodup) :
    ∀ eff : EffMap, lenAt (vs.foldl dcStep eff) K =
      lenAt eff K + (if (aget vs K).isSome then 1 else 0) := by
  induction vs with
  | nil => intro eff; simp [aget]
  | cons hd tl ih =>
      intro eff
      obtain ⟨k0, v0⟩ := hd
      simp only [keysOf_cons, List.nodup_cons] at hnd
      rw [List.foldl_cons]
      by_cases h : k0 = K
      · subst h
        have htl : aget tl k0 = none := aget_eq_none_of_not_mem hnd.1
        rw [ih hnd.2]
        have hself : lenAt (dcStep eff (k0, v0)) k0 = lenAt eff k0 + 1 := by
          unfold dcStep lenAt
          rw [aget_aset_self]
          cases hg : aget eff k0 <;> simp [hg]
        rw [hself]
        simp [aget, htl]
      · rw [ih hnd.2]
        have hne : lenAt (dcStep eff (k0, v0)) K = lenAt eff K := by
          unfold dcStep lenAt
          rw [aget_aset_ne eff h]
        rw [hne]
        simp [aget, h]

theorem isSome_dcFold (vs : List (String × PVal)) (K : String) :
    ∀ eff : EffMap, (aget (vs.foldl dcStep eff) K).isSome =
      ((aget eff K).isSome || (aget vs K).isSome) := by
  induction vs with
  | nil => intro eff; simp [aget]
  | cons hd tl ih =>
      intro eff
      obtain ⟨k0, v0⟩ := hd
      rw [List.foldl_cons, ih]
      by_cases h : k0 = K
      · subst h
        unfold dcStep
        rw [aget_aset_self]
        simp [aget]
      · unfold dcStep
        rw [aget_aset_ne eff h]
        simp [aget, h]

theorem dcFold_last (vs : List (String × PVal)) (K : String) :
    ∀ eff : EffMap, (aget vs K).isSome = true →
      ∀ e, aget (vs.foldl dcStep eff) K = some e →
        e.sources.getLast? = some "definition_changes" := by
  induction vs with
  | nil => intro eff hmem; simp [aget] at hmem
  | cons hd tl ih =>
      intro eff hmem e he
      obtain ⟨k0, v0⟩ := hd
      rw [List.foldl_cons] at he
      by_cases htl : (aget tl K).isSome = true
      · exact ih (dcStep eff (k0, v0)) htl e he
      · have hk : k0 = K := by
          by_contra hne
          rw [aget_cons, if_neg hne] at hmem
          exact htl hmem
        subst hk
        have hnm : k0 ∉ keysOf tl := by
          intro hmm
          exact htl ((aget_isSome_iff_mem tl k0).mpr hmm)
        rw [dcFold_not_mem tl k0 hnm] at he
        unfold dcStep at he
        rw [aget_aset_self] at he
        cases he
        exact getLast?_append_singleton _ _

theorem aget_dcFold (vs : List (String × PVal)) (K : String) (V : PVal)
    (hnd : (keysOf vs).Nodup) :
    ∀ eff : EffMap, aget vs K = some V →
      aget (vs.foldl dcStep eff) K =
        some ⟨aset ((aget eff K).getD ⟨[], []⟩).fields "effective_value" V,
              ((aget eff K).getD ⟨[], []⟩).sources ++ ["definition_changes"]⟩ := by
  induction vs with
  | nil => intro eff hK; simp [aget] at hK
  | cons hd tl ih =>
      intro eff hK
      obtain ⟨k0, v0⟩ := hd
      simp only [keysOf_cons, List.nodup_cons] at hnd
      rw [List.foldl_cons]
      by_cases h : k0 = K
      · subst h
        rw [aget_cons, if_pos rfl] at hK
        cases hK
        have hnm : k0 ∉ keysOf tl := hnd.1
        rw [dcFold_not_mem tl k0 hnm]
        unfold dcStep
        rw [aget_aset_self]
      · rw [aget_cons, if_neg h] at hK
        rw [ih hnd.2 (dcStep eff (k0, v0)) hK]
        have hpre : aget (dcStep eff (k0, v0)) K = aget eff K := by
          unfold dcStep
          exact aget_aset_ne eff h _
        rw [hpre]

theorem lenAt_mergeChain (env : DefEnv) (chain : List ChainLink) (K : String) :
    lenAt (mergeChain env chain) K = (chain.filter (linkDefines env K)).length := by
  unfold mergeChain
  rw [lenAt_chainFold]
  simp [lenAt, aget, List.filter_reverse]

theorem isSome_mergeChain (env : DefEnv) (chain : List ChainLink) (K : String) :
    (aget (mergeChain env chain) K).isSome = chain.any (linkDefines env K) := by
  unfold mergeChain
  rw [isSome_chainFold]
  simp [aget, List.any_reverse]

theorem lenAt_effectiveSettings (env : DefEnv) (chain : List ChainLink)
    (ov : Option (List (String × PVal))) (K : String) (hov : ovNodup ov) :
    lenAt (effectiveSettings env chain ov) K =
      (chain.filter (linkDefines env K)).length + (if ovHas ov K then 1 else 0) := by
  unfold effectiveSettings applyDefChanges
  cases ov with
  | none => simp [ovHas, lenAt_mergeChain]
  | some vs =>
      unfold ovNodup at hov
      rw [lenAt_dcFold vs K hov, lenAt_mergeChain]
      rfl

theorem isSome_effectiveSettings (env : DefEnv) (chain : List ChainLink)
    (ov : Option (List (String × PVal))) (K : String) :
    (aget (effectiveSettings env chain ov) K).isSome =
      (chain.any (linkDefines env K) || ovHas ov K) := by
  unfold effectiveSettings applyDefChanges
  cases ov with
  | none => simp [ovHas, isSome_mergeChain]
  | some vs =>
      rw [isSome_dcFold vs K, isSome_mergeChain]
      rfl

theorem nodup_effectiveSettings (env : DefEnv) (chain : List ChainLink)
    (ov : Option (List (String × PVal))) :
    (keysOf (effectiveSettings env chain ov)).Nodup := by
  have hchain : (keysOf (mergeChain env chain)).Nodup := by
    unfold mergeChain
    refine foldl_invariant (fun m => (keysOf m).Nodup) (mergeStep env) ?_ _ _ (by simp [keysOf])
    intro eff l h
    unfold mergeStep
    exact foldl_invariant (fun m => (keysOf m).Nodup) (msStep l.name)
      (fun a b ha => nodup_msStep _ _ _ ha) _ _ h
  unfold effectiveSettings applyDefChanges
  cases ov with
  | none => exact hchain
  | some vs =>
      exact foldl_invariant (fun m => (keysOf m).Nodup) dcStep
        (fun a b ha => nodup_dcStep _ _ ha) _ _ hchain

theorem srcNonempty_effectiveSettings (env : DefEnv) (chain : List ChainLink)
    (ov : Option (List (String × PVal))) :
    srcNonempty (effectiveSettings env chain ov) := by
  have hchain : srcNonempty (mergeChain env chain) := by
    unfold mergeChain
    refine foldl_invariant srcNonempty (mergeStep env) ?_ _ _ ?_
    · intro eff l h
      unfold mergeStep
      exact foldl_invariant srcNonempty (msStep l.name)
        (fun a b ha => srcNonempty_msStep _ _ _ ha) _ _ h
    · intro K e hK
      simp [aget] at hK
  unfold effectiveSettings applyDefChanges
  cases ov with
  | none => exact hchain
  | some vs =>
      exact foldl_invariant srcNonempty dcStep
        (fun a b ha => srcNonempty_dcStep _ _ ha) _ _ hchain

theorem last_source_effectiveSettings (env : DefEnv) (chain : List ChainLink)
    (vs : List (String × PVal)) (K : String) (e : EffEntry)
    (hmem : (aget vs K).isSome = true)
    (he : aget (effectiveSettings env chain (some vs)) K = some e) :
    e.sources.getLast? = some "definition_changes" := by
  unfold effectiveSettings applyDefChanges at he
  exact dcFold_last vs K (mergeChain env chain) hmem e he

theorem ovFold_not_mem (f : String) (l : List (String × SettingDict)) (K : String)
    (h : ∀ q ∈ l, q.1 ≠ K) :
    ∀ acc : SMap, aget (l.foldl (overridesStep f) acc) K = aget acc K := by
  induction l with
  | nil => intro acc; rfl
  | cons hd tl ih =>
      intro acc
      rw [List.foldl_cons, ih (fun q hq => h q (List.mem_cons_of_mem hd hq))]
      unfold overridesStep
      exact aget_aset_ne acc (h hd (List.mem_cons_self hd tl)) _

/-! ### Claim theorems -/

/-- C1: for every inheritance chain of N links, the merger visits exactly
N layers, and for every key of the resulting effective-settings map the
`_sources` provenance list has length equal to the number of chain layers
whose document defines that key, plus one if the override
(definition-changes) layer defines it. -/
theorem effective_sources_length (env : DefEnv) (chain : List ChainLink)
    (ov : Option (List (String × PVal))) (key : String) (e : EffEntry)
    (hov : ovNodup ov)
    (he : aget (effectiveSettings env chain ov) key = some e) :
    (mergeTrace chain).length = chain.length ∧
    e.sources.length =
      (chain.filter (linkDefines env key)).length +
        (if ovHas ov key then 1 else 0) := by
  refine ⟨by simp [mergeTrace], ?_⟩
  have h1 := lenAt_effectiveSettings env chain ov key hov
  unfold lenAt at h1
  rw [he] at h1
  exact h1

/-- The entry the chain merge alone (no override layer) produces for
`layer_height` in the worked example. -/
def c2pre : EffEntry :=
  { fields := [("default_value", .vStr "0.16"), ("type", .vStr "float"),
               ("_source", .vStr "creality_ender3pro.def.json")]
    sources := ["fdmprinter", "creality_ender3pro"] }

/-- Witness for C1 at the worked three-layer example. -/
theorem effective_sources_length_witness :
    (mergeTrace c3links).length = c3links.length ∧
    c3entry.sources.length =
      (c3links.filter (linkDefines envC3 "layer_height")).length +
        (if ovHas c3ov "layer_height" then 1 else 0) :=
  effective_sources_length envC3 c3links c3ov "layer_height" c3entry
    (by simp [ovNodup, c3ov, keysOf]) (by decide)

/-- C2: when a chain layer gives key K the default value D and the
override layer sets K to V, the merged entry keeps `default_value = D`,
gains `effective_value = V`, and its provenance ends with the
`definition_changes` marker. -/
theorem override_precedence (env : DefEnv) (chain : List ChainLink)
    (vs : List (String × PVal)) (K : String) (e : EffEntry) (D V : PVal)
    (hnd : (keysOf vs).Nodup)
    (hc : aget (mergeChain env chain) K = some e)
    (hd : aget e.fields "default_value" = some D)
    (hv : aget vs K = some V) :
    ∃ e2, aget (effectiveSettings env chain (some vs)) K = some e2 ∧
      aget e2.fields "default_value" = some D ∧
      aget e2.fields "effective_value" = some V ∧
      e2.sources.getLast? = some "definition_changes" := by
  have h := aget_dcFold vs K V hnd (mergeChain env chain) hv
  rw [hc] at h
  simp only [Option.getD_some] at h
  unfold effectiveSettings applyDefChanges
  refine ⟨_, h, ?_, ?_, ?_⟩
  · show aget (aset e.fields "effective_value" V) "default_value" = some D
    rw [aget_aset_ne e.fields (by decide) V]
    exact hd
  · exact aget_aset_self e.fields "effective_value" V
  · exact getLast?_append_singleton _ _

/-- Witness for C2 at the worked example: default `0.16` from the chain,
effective `0.12` from the overrides, provenance ends with the marker. -/
theorem override_precedence_witness :
    ∃ e2, aget (effectiveSettings envC3 c3links
        (some [("layer_height", PVal.vStr "0.12")])) "layer_height" = some e2 ∧
      aget e2.fields "default_value" = some (PVal.vStr "0.16") ∧
      aget e2.fields "effective_value" = some (PVal.vStr "0.12") ∧
      e2.sources.getLast? = some "definition_changes" :=
  override_precedence envC3 c3links [("layer_height", PVal.vStr "0.12")]
    "layer_height" c2pre (PVal.vStr "0.16") (PVal.vStr "0.12")
    (by simp [keysOf]) (by decide) (by decide) (by decide)

/-- C5: the effective map has exactly one entry per key observed in any
chain layer or the override layer (no key dropped, no duplicates), every
present key has non-empty provenance, and when the override layer
contributed to a key, `definition_changes` is its last provenance entry. -/
theorem effective_map_invariants (env : DefEnv) (chain : List ChainLink)
    (ov : Option (List (String × PVal))) :
    (keysOf (effectiveSettings env chain ov)).Nodup ∧
    (∀ key, (aget (effectiveSettings env chain ov) key).isSome =
      (chain.any (linkDefines env key) || ovHas ov key)) ∧
    (∀ key e, aget (effectiveSettings env chain ov) key = some e →
      e.sources ≠ []) ∧
    (∀ key e, aget (effectiveSettings env chain ov) key = some e →
      ovHas ov key = true → e.sources.getLast? = some "definition_changes") := by
  refine ⟨nodup_effectiveSettings env chain ov,
    fun key => isSome_effectiveSettings env chain ov key,
    srcNonempty_effectiveSettings env chain ov, ?_⟩
  intro key e he hk
  cases ov with
  | none => simp [ovHas] at hk
  | some vs =>
      unfold ovHas at hk
      exact last_source_effectiveSettings env chain vs key e hk he

/-- C3 (counterexample): in the worked `layer_height` example the code's
provenance list is `[fdmprinter, creality_ender3pro, definition_changes]`,
not the claimed four-element list containing `creality_base` — the merger
never appends a layer that does not define the key. -/
theorem example_provenance_counterexample :
    buildChain envC3 10 "creality_ender3pro" = BuildResult.ok c3links ∧
    aget (effectiveSettings envC3 c3links c3ov) "layer_height" = some c3entry ∧
    c3entry.sources ≠
      ["fdmprinter", "creality_base", "creality_ender3pro", "definition_changes"] :=
  ⟨by decide, by decide, by decide⟩

/-- C3 (amended): in the worked example the resolved `layer_height` entry
has `default_value 0.16`, `effective_value 0.12`, and provenance exactly
`[fdmprinter, creality_ender3pro, definition_changes]` — only the layers
that define the key appear. -/
theorem example_provenance_resolved :
    buildChain envC3 10 "creality_ender3pro" = BuildResult.ok c3links ∧
    aget (effectiveSettings envC3 c3links c3ov) "layer_height" = some c3entry ∧
    aget c3entry.fields "default_value" = some (PVal.vStr "0.16") ∧
    aget c3entry.fields "effective_value" = some (PVal.vStr "0.12") ∧
    c3entry.sources = ["fdmprinter", "creality_ender3pro", "definition_changes"] :=
  ⟨by decide, by decide, by decide, by decide, by decide⟩

theorem buildChain_cyc_a (n : Nat) :
    buildChain envCyc (n + 1) "cyc_a" =
      match buildChain envCyc n "cyc_b" with
      | .ok rest => .ok (⟨"cyc_a", some "cyc_b"⟩ :: rest)
      | .out rest => .out (⟨"cyc_a", some "cyc_b"⟩ :: rest) := rfl

theorem buildChain_cyc_b (n : Nat) :
    buildChain envCyc (n + 1) "cyc_b" =
      match buildChain envCyc n "cyc_a" with
      | .ok rest => .ok (⟨"cyc_b", some "cyc_a"⟩ :: rest)
      | .out rest => .out (⟨"cyc_b", some "cyc_a"⟩ :: rest) := rfl

theorem buildChain_cyc_out (n : Nat) :
    ∀ c, (c = "cyc_a" ∨ c = "cyc_b") → isOut (buildChain envCyc n c) = true := by
  induction n with
  | zero =>
      intro c hc
      cases hc <;> (subst_vars; rfl)
  | succ n ih =>
      intro c hc
      cases hc with
      | inl h =>
          subst h
          rw [buildChain_cyc_a]
          cases hb : buildChain envCyc n "cyc_b" with
          | ok rest =>
              have h2 := ih "cyc_b" (Or.inr rfl)
              rw [hb] at h2
              simp [isOut] at h2
          | out rest => rfl
      | inr h =>
          subst h
          rw [buildChain_cyc_b]
          cases hb : buildChain envCyc n "cyc_a" with
          | ok rest =>
              have h2 := ih "cyc_a" (Or.inl rfl)
              rw [hb] at h2
              simp [isOut] at h2
          | out rest => rfl

theorem walkIter_cyc (n : Nat) :
    walkIter envCyc "cyc_a" n = WalkState.running "cyc_a" ∨
    walkIter envCyc "cyc_a" n = WalkState.running "cyc_b" := by
  induction n with
  | zero => left; rfl
  | succ n ih =>
      cases ih with
      | inl h =>
          right
          show chainStep envCyc (walkIter envCyc "cyc_a" n) = _
          rw [h]
          rfl
      | inr h =>
          left
          show chainStep envCyc (walkIter envCyc "cyc_a" n) = _
          rw [h]
          rfl

/-- C4 (behaviour of the code at the failing input): with `cyc_a`
inheriting `cyc_b` and `cyc_b` inheriting `cyc_a`, the chain-walk loop of
`_extract_machine` never exits — after any number of iterations it is
still running, and any amount of fuel is exhausted.  The source has no
visited-identifier check and reports no cyclic-inheritance error. -/
theorem cyclic_chain_never_terminates (n : Nat) :
    walkIter envCyc "cyc_a" n ≠ WalkState.done ∧
    isOut (buildChain envCyc n "cyc_a") = true := by
  constructor
  · cases walkIter_cyc n with
    | inl h => rw [h]; intro hc; cases hc
    | inr h => rw [h]; intro hc; cases hc
  · exact buildChain_cyc_out n "cyc_a" (Or.inl rfl)

theorem buildChain_missing (env : DefEnv) :
    ∀ (path : List (String × DefData)) (start : String) (fuel : Nat),
      MissingParentPath env start path → path.length < fuel →
      buildChain env fuel start = BuildResult.ok (path.map LinkOf) := by
  intro path
  induction path with
  | nil => intro start fuel h hf; exact h.elim
  | cons hd tl ih =>
      intro start fuel h hf
      obtain ⟨n, d⟩ := hd
      cases tl with
      | nil =>
          simp only [MissingParentPath] at h
          obtain ⟨rfl, hne, henv, p, hp, hpne, hpnone⟩ := h
          have hf2 : 1 < fuel := by simpa using hf
          obtain ⟨f1, rfl⟩ : ∃ f1, fuel = f1 + 1 := ⟨fuel - 1, by omega⟩
          obtain ⟨f2, rfl⟩ : ∃ f2, f1 = f2 + 1 := ⟨f1 - 1, by omega⟩
          simp [buildChain, hne, henv, hp, hpne, hpnone, LinkOf]
      | cons t ts =>
          simp only [MissingParentPath] at h
          obtain ⟨rfl, hne, henv, p, hp, hrest⟩ := h
          have hf2 : ts.length + 1 + 1 < fuel := by simpa using hf
          obtain ⟨f1, rfl⟩ : ∃ f1, fuel = f1 + 1 := ⟨fuel - 1, by omega⟩
          have hlen : (t :: ts).length < f1 := by
            simp only [List.length_cons]
            omega
          have hr := ih p f1 hrest hlen
          simp [buildChain, hne, henv, hp, hr, LinkOf]

/-- C6: a chain whose last document declares a parent identifier with no
backing document terminates the resolver at that point without error — the
walk returns exactly the links seen so far — and every key merged from
those links is present in the returned effective-settings map. -/
theorem missing_parent_chain (env : DefEnv) (path : List (String × DefData))
    (start : String) (fuel : Nat) (ov : Option (List (String × PVal)))
    (h : MissingParentPath env start path) (hf : path.length < fuel) :
    buildChain env fuel start = BuildResult.ok (path.map LinkOf) ∧
    ∀ key, ((path.map LinkOf).any (linkDefines env key)) = true →
      (aget (effectiveSettings env (path.map LinkOf) ov) key).isSome = true := by
  refine ⟨buildChain_missing env path start fuel h hf, fun key hk => ?_⟩
  rw [isSome_effectiveSettings]
  simp [hk]

/-- Witness for C6: a one-link chain whose document defines `c6_setting`
and declares the absent parent `c6_missing`. -/
theorem missing_parent_chain_witness :
    buildChain envC6 5 "c6a" = BuildResult.ok ([("c6a", c6dA)].map LinkOf) ∧
    ∀ key, (([("c6a", c6dA)].map LinkOf).any (linkDefines envC6 key)) = true →
      (aget (effectiveSettings envC6 ([("c6a", c6dA)].map LinkOf) none) key).isSome = true :=
  missing_parent_chain envC6 [("c6a", c6dA)] "c6a" 5 none
    ⟨rfl, by decide, rfl, "c6_missing", rfl, by decide, rfl⟩ (by decide)

/-- C7: a key under both the `settings` tree and the `overrides` map is
merged shallowly, override fields taking precedence, and the entry's
`_source` tag is the single value naming this document's own file. -/
theorem settings_overrides_merge (d : DefData) (k : String) (e ov : SettingDict)
    (l1 l2 : List (String × SettingDict))
    (hs : aget (settingsPass d) k = some e)
    (hov : d.overrides = some (l1 ++ (k, ov) :: l2))
    (h1 : ∀ q ∈ l1, q.1 ≠ k) (h2 : ∀ q ∈ l2, q.1 ≠ k)
    (hnd : (keysOf ov).Nodup) :
    ∃ r, aget (extract_settings_from_def d) k = some r ∧
      (∀ f, f ≠ "_source" → aget r f = oOr (aget ov f) (aget e f)) ∧
      aget r "_source" = some (PVal.vStr (d.filename.getD "unknown")) := by
  have hmain : aget (extract_settings_from_def d) k =
      some (aset (aupdate e ov) "_source" (PVal.vStr (d.filename.getD "unknown"))) := by
    have hA : aget (l1.foldl (overridesStep (d.filename.getD "unknown")) (settingsPass d)) k
        = some e :=
      (ovFold_not_mem (d.filename.getD "unknown") l1 k h1 (settingsPass d)).trans hs
    unfold extract_settings_from_def
    rw [hov]
    show aget ((l1 ++ (k, ov) :: l2).foldl
      (overridesStep (d.filename.getD "unknown")) (settingsPass d)) k = _
    rw [List.foldl_append, List.foldl_cons,
      ovFold_not_mem (d.filename.getD "unknown") l2 k h2]
    simp only [overridesStep, hA, Option.getD_some]
    exact aget_aset_self _ _ _
  refine ⟨_, hmain, fun f hf => ?_, ?_⟩
  · rw [aget_aset_ne _ (Ne.symm hf), aget_aupdate e ov f hnd]
  · exact aget_aset_self _ _ _

/-- A document defining `speed_print` in its `settings` tree and
overriding it in its `overrides` map. -/
def c7d : DefData :=
  { filename := some "c7.def.json"
    inherits := none
    settings := some (.node "speed_print"
      [("type", .vStr "float"), ("default_value", .vStr "60")] .nil .nil)
    overrides := some [("speed_print",
      [("default_value", .vStr "50"), ("unit", .vStr "mm")])] }

/-- Witness for C7 at a concrete document. -/
theorem settings_overrides_merge_witness :
    ∃ r, aget (extract_settings_from_def c7d) "speed_print" = some r ∧
      (∀ f, f ≠ "_source" →
        aget r f = oOr (aget [("default_value", PVal.vStr "50"), ("unit", PVal.vStr "mm")] f)
          (aget [("default_value", PVal.vStr "60"), ("type", PVal.vStr "float")] f)) ∧
      aget r "_source" = some (PVal.vStr (c7d.filename.getD "unknown")) :=
  settings_overrides_merge c7d "speed_print"
    [("default_value", PVal.vStr "60"), ("type", PVal.vStr "float")]
    [("default_value", PVal.vStr "50"), ("unit", PVal.vStr "mm")] [] []
    (by decide) rfl (by simp) (by simp) (by simp [keysOf])

/-- C8: neither parser lets a failure escape — for every filesystem
outcome the result is a plain record carrying the source-path annotations,
and exactly the failing reads (absent, unreadable or malformed files)
carry the `_error` marker. -/
theorem parsers_error_markers (fsc : FPath → CfgFile) (fsd : FPath → DefFile) (p : FPath) :
    (parse_cfg_file fsc p).filepath = p.full ∧
    (parse_cfg_file fsc p).filename = p.name ∧
    (cfgFailed (fsc p) = true → ((parse_cfg_file fsc p).error).isSome = true) ∧
    (cfgFailed (fsc p) = false → (parse_cfg_file fsc p).error = none) ∧
    (parse_def_json fsd p).filepath = p.full ∧
    (parse_def_json fsd p).filename = p.name ∧
    (defFailed (fsd p) = true → ((parse_def_json fsd p).error).isSome = true) ∧
    (defFailed (fsd p) = false → (parse_def_json fsd p).error = none) := by
  unfold parse_cfg_file parse_def_json cfgFailed defFailed
  cases fsc p <;> cases fsd p <;> simp

/-- Witness for C8 at an absent file. -/
theorem parsers_error_markers_witness :
    (parse_cfg_file (fun _ => CfgFile.absent) ⟨"C:/cura/cura.cfg", "cura.cfg"⟩).filepath =
      "C:/cura/cura.cfg" ∧
    (parse_cfg_file (fun _ => CfgFile.absent) ⟨"C:/cura/cura.cfg", "cura.cfg"⟩).filename =
      "cura.cfg" ∧
    (cfgFailed ((fun _ => CfgFile.absent) (⟨"C:/cura/cura.cfg", "cura.cfg"⟩ : FPath)) = true →
      ((parse_cfg_file (fun _ => CfgFile.absent)
        ⟨"C:/cura/cura.cfg", "cura.cfg"⟩).error).isSome = true) ∧
    (cfgFailed ((fun _ => CfgFile.absent) (⟨"C:/cura/cura.cfg", "cura.cfg"⟩ : FPath)) = false →
      (parse_cfg_file (fun _ => CfgFile.absent) ⟨"C:/cura/cura.cfg", "cura.cfg"⟩).error = none) ∧
    (parse_def_json (fun _ => DefFile.absent) ⟨"C:/cura/cura.cfg", "cura.cfg"⟩).filepath =
      "C:/cura/cura.cfg" ∧
    (parse_def_json (fun _ => DefFile.absent) ⟨"C:/cura/cura.cfg", "cura.cfg"⟩).filename =
      "cura.cfg" ∧
    (defFailed ((fun _ => DefFile.absent) (⟨"C:/cura/cura.cfg", "cura.cfg"⟩ : FPath)) = true →
      ((parse_def_json (fun _ => DefFile.absent)
        ⟨"C:/cura/cura.cfg", "cura.cfg"⟩).error).isSome = true) ∧
    (defFailed ((fun _ => DefFile.absent) (⟨"C:/cura/cura.cfg", "cura.cfg"⟩ : FPath)) = false →
      (parse_def_json (fun _ => DefFile.absent) ⟨"C:/cura/cura.cfg", "cura.cfg"⟩).error = none) :=
  parsers_error_markers (fun _ => CfgFile.absent) (fun _ => DefFile.absent)
    ⟨"C:/cura/cura.cfg", "cura.cfg"⟩

/-- C9: two same-named custom quality files merge into one grouped
profile; its settings map is the union of the two files' keys
(a key present in only one file keeps that file's value), and a key
present in both resolves to the later-processed file's value. -/
theorem cqStep_eq (res : List (String × QProfile)) (f : QFile) (vs : Sect)
    (hv : aget f.cfg.sections "values" = some vs) (md : Option Sect)
    (hm : aget f.cfg.sections "metadata" = md) :
    cqStep res f = aset res (qName f)
      { files := ((aget res (qName f)).getD ⟨[], [], none⟩).files ++ [f.path]
        settings := aupdate ((aget res (qName f)).getD ⟨[], [], none⟩).settings vs
        metadata := oOr md ((aget res (qName f)).getD ⟨[], [], none⟩).metadata } := by
  unfold cqStep
  rw [hv, hm]
  cases md <;> rfl

/-- C9: two same-named custom quality files merge into one grouped
profile; its settings map is the union of the two files' keys
(a key present in only one file keeps that file's value), and a key
present in both resolves to the later-processed file's value. -/
theorem custom_quality_grouping (f1 f2 : QFile) (n : String) (v1 v2 : Sect)
    (h1 : qName f1 = n) (h2 : qName f2 = n)
    (hv1 : aget f1.cfg.sections "values" = some v1)
    (hv2 : aget f2.cfg.sections "values" = some v2)
    (nd1 : (keysOf v1).Nodup) (nd2 : (keysOf v2).Nodup) :
    keysOf (extractCustomQualities [f1, f2]) = [n] ∧
    ∃ pr, aget (extractCustomQualities [f1, f2]) n = some pr ∧
      ∀ k, aget pr.settings k = oOr (aget v2 k) (aget v1 k) := by
  have hset : ∀ k, aget (aupdate (aupdate ([] : Sect) v1) v2) k =
      oOr (aget v2 k) (aget v1 k) := by
    intro k
    rw [aget_aupdate _ _ _ nd2, aget_aupdate _ _ _ nd1]
    simp
  have he1 := cqStep_eq [] f1 v1 hv1 _ rfl
  rw [h1] at he1
  simp only [aget_nil, Option.getD_none, List.nil_append] at he1
  have he2 := cqStep_eq (cqStep [] f1) f2 v2 hv2 _ rfl
  rw [h2] at he2
  rw [he1] at he2
  simp only [aget_aset_self, Option.getD_some] at he2
  have hfin : extractCustomQualities [f1, f2] = cqStep (cqStep [] f1) f2 := rfl
  rw [he1] at hfin
  rw [he2] at hfin
  have haa : ∀ p1 p2 : QProfile,
      aset (aset ([] : List (String × QProfile)) n p1) n p2 = [(n, p2)] := by
    intro p1 p2
    simp [aset]
  rw [haa] at hfin
  refine ⟨by rw [hfin]; rfl, ?_⟩
  refine ⟨_, by rw [hfin, aget_cons, if_pos rfl], fun k => ?_⟩
  show aget (aupdate (aupdate [] v1) v2) k = _
  exact hset k

/-- The global file of a custom profile named `MyProfile`. -/
def qf1 : QFile :=
  { path := "C:/cura/quality_changes/a.inst.cfg"
    stem := "a.inst"
    cfg := ⟨"C:/cura/quality_changes/a.inst.cfg", "a.inst.cfg", none,
      [("general", [("name", "MyProfile")]),
       ("values", [("layer_height", "0.2"), ("speed_print", "50")])]⟩ }

/-- A per-extruder file of the same profile, processed later. -/
def qf2 : QFile :=
  { path := "C:/cura/quality_changes/b.inst.cfg"
    stem := "b.inst"
    cfg := ⟨"C:/cura/quality_changes/b.inst.cfg", "b.inst.cfg", none,
      [("general", [("name", "MyProfile")]),
       ("values", [("speed_print", "60"), ("infill_sparse_density", "20")])]⟩ }

/-- Witness for C9: disjoint keys union, the shared key `speed_print`
resolves to the later file's value. -/
theorem custom_quality_grouping_witness :
    keysOf (extractCustomQualities [qf1, qf2]) = ["MyProfile"] ∧
    ∃ pr, aget (extractCustomQualities [qf1, qf2]) "MyProfile" = some pr ∧
      ∀ k, aget pr.settings k =
        oOr (aget [("speed_print", "60"), ("infill_sparse_density", "20")] k)
          (aget [("layer_height", "0.2"), ("speed_print", "50")] k) :=
  custom_quality_grouping qf1 qf2 "MyProfile"
    [("layer_height", "0.2"), ("speed_print", "50")]
    [("speed_print", "60"), ("infill_sparse_density", "20")]
    rfl rfl rfl rfl (by simp [keysOf]) (by simp [keysOf])

theorem ksFold_not_mem (effective : EffMap) (defChanges : List (String × PVal))
    (setting : String) (l : List String) (h : setting ∉ l) :
    ∀ acc, aget (l.foldl (ksStep effective defChanges) acc) setting = aget acc setting := by
  induction l with
  | nil => intro acc; rfl
  | cons s0 tl ih =>
      intro acc
      simp only [List.mem_cons, not_or] at h
      rw [List.foldl_cons, ih h.2]
      unfold ksStep
      cases keySettingValue effective defChanges s0 with
      | none => rfl
      | some v => exact aget_aset_ne acc (Ne.symm h.1) v

theorem ksFold_mem (effective : EffMap) (defChanges : List (String × PVal))
    (setting : String) (val : Option PVal) (l : List String)
    (hnd : l.Nodup) (hmem : setting ∈ l)
    (hv : keySettingValue effective defChanges setting = some val) :
    ∀ acc, aget (l.foldl (ksStep effective defChanges) acc) setting = some val := by
  induction l with
  | nil => cases hmem
  | cons s0 tl ih =>
      intro acc
      simp only [List.nodup_cons] at hnd
      rw [List.foldl_cons]
      by_cases h : s0 = setting
      · subst h
        rw [ksFold_not_mem effective defChanges s0 tl hnd.1]
        unfold ksStep
        rw [hv, aget_aset_self]
      · have hmem2 : setting ∈ tl := by
          cases hmem with
          | head => exact absurd rfl h
          | tail _ hm => exact hm
        exact ih hnd.2 hmem2 _

/-- The definition-changes values producing a falsy merged
`effective_value`: `layer_height` customized to the empty string. -/
def c10ov : List (String × PVal) := [("layer_height", PVal.vStr "")]

/-- The merged entry the pipeline produces for `layer_height` with the
empty-string customization: its `effective_value` is falsy. -/
def c10entry : EffEntry :=
  { fields := [("default_value", .vStr "0.16"), ("type", .vStr "float"),
               ("_source", .vStr "creality_ender3pro.def.json"),
               ("effective_value", .vStr "")]
    sources := ["fdmprinter", "creality_ender3pro", "definition_changes"] }

/-- C10 (counterexample): a merged `effective_value` exists only because
the overlay iterated the same `definition_changes` values dict that
`extract_key_settings` reads as `def_changes`, so every such setting takes
the `setting in def_changes` branch.  Here `layer_height` has the falsy
merged `effective_value` of the empty string, yet the quick-reference
section reports the user's override (the empty string), not the inherited
`default_value 0.16` — the claimed skip does not happen. -/
theorem key_settings_truthiness_counterexample :
    aget (effectiveSettings envC3 c3links (some c10ov)) "layer_height" = some c10entry ∧
    pyTruthyO (aget c10entry.fields "effective_value") = false ∧
    aget (extract_key_settings (effectiveSettings envC3 c3links (some c10ov)) c10ov)
        "layer_height" = some (some (PVal.vStr "")) ∧
    some (PVal.vStr "") ≠
      pyOr (aget c10entry.fields "value") (aget c10entry.fields "default_value") :=
  ⟨by decide, by decide, by decide, by decide⟩

/-- C10 (amended): the Python truthiness fallback
`effective_value or value or default_value` governs only settings absent
from the definition-changes map; for such a setting whose
`effective_value` field is falsy, the customized value is skipped and the
inherited `value` or `default_value` is reported instead.  A setting
present in definition-changes — which includes every setting whose merged
`effective_value` the pipeline's overlay produced — is reported from
definition-changes directly as the user's override. -/
theorem key_settings_truthiness (effective : EffMap) (defChanges : List (String × PVal))
    (setting : String) (info : EffEntry) (v : PVal)
    (hmem : setting ∈ IMPORTANT_SETTINGS)
    (hdc : aget defChanges setting = none)
    (heff : aget effective setting = some info)
    (hev : aget info.fields "effective_value" = some v)
    (hfalsy : pyTruthy v = false) :
    aget (extract_key_settings effective defChanges) setting =
      some (pyOr (aget info.fields "value") (aget info.fields "default_value")) := by
  have hnd : IMPORTANT_SETTINGS.Nodup := by decide
  have hv : keySettingValue effective defChanges setting =
      some (pyOr (aget info.fields "value") (aget info.fields "default_value")) := by
    unfold keySettingValue
    rw [hdc, heff]
    simp [hev, pyOr, pyTruthyO, hfalsy]
  unfold extract_key_settings
  exact ksFold_mem effective defChanges setting _ IMPORTANT_SETTINGS hnd hmem hv []

/-- An effective entry whose `effective_value` is the falsy empty string
while `value` and `default_value` are inherited. -/
def c10info : EffEntry :=
  { fields := [("default_value", .vStr "0.2"), ("value", .vStr "0.18"),
               ("effective_value", .vStr "")]
    sources := ["fdmprinter", "definition_changes"] }

/-- Witness for C10: the empty-string override of `layer_height` is
skipped and the inherited `value` is reported. -/
theorem key_settings_truthiness_witness :
    aget (extract_key_settings [("layer_height", c10info)] []) "layer_height" =
      some (pyOr (aget c10info.fields "value") (aget c10info.fields "default_value")) :=
  key_settings_truthiness [("layer_height", c10info)] [] "layer_height" c10info
    (PVal.vStr "") (by decide) rfl rfl rfl rfl

/-- Witness for C5 at the worked example. -/
theorem effective_map_invariants_witness :
    (keysOf (effectiveSettings envC3 c3links c3ov)).Nodup ∧
    (∀ key, (aget (effectiveSettings envC3 c3links c3ov) key).isSome =
      (c3links.any (linkDefines envC3 key) || ovHas c3ov key)) ∧
    (∀ key e, aget (effectiveSettings envC3 c3links c3ov) key = some e →
      e.sources ≠ []) ∧
    (∀ key e, aget (effectiveSettings envC3 c3links c3ov) key = some e →
      ovHas c3ov key = true → e.sources.getLast? = some "definition_changes") :=
  effective_map_invariants envC3 c3links c3ov
